import Mathlib

/-!
Verification development for the cgroups-explorer repository
(src/explorer.rs).  The discovery engine is shallowly embedded:

* OS strings and paths are byte-level (`OsStr`/`OsPath`), and
  `Path::to_string_lossy` is modelled by a UTF-8 decoder that replaces
  invalid sequences by U+FFFD, as `std` documents.
* glob patterns and regexes are the external collaborators the spec
  declares out of scope: a compiled pattern is a black-box boolean
  predicate on strings (`GlobPattern.matches`, `RegexPattern.is_match`),
  and pattern compilation is a black-box `String -> Except err pattern`
  function supplied as an argument to the builder's parse functions.
* the walkdir iterator consumed by the traversal engine is modelled as a
  list of `Except WalkError WalkEntryR` items, exactly the stream of
  `Result<DirEntry, Error>` values `walkdir::IntoIter` produces.
* directory trees (for the walkdir collaborator's documented behaviour:
  depth-first traversal, entries sorted by file name at each level,
  `min_depth(1)`) are modelled by the nested inductive `FsNode`.
-/

/-- Byte string, the content of an `OsStr` on Unix. -/
abbrev OsStr := List Nat

/-- A path as its list of components, each component an `OsStr`. -/
abbrev OsPath := List OsStr

/-- The Unicode replacement character U+FFFD. -/
def replChar : Char := Char.ofNat 0xFFFD

/-- True for UTF-8 continuation bytes 0x80..0xBF. -/
def isCont (b : Nat) : Bool := 128 ≤ b && b ≤ 191

/-- Fuel-indexed UTF-8 decoding with U+FFFD replacement for invalid
sequences; fuel bounds the number of decoding steps, one byte consumed
per step at least, so fuel equal to the length of the input suffices. -/
def utf8LossyAux : Nat → List Nat → List Char
  | 0, _ => []
  | _ + 1, [] => []
  | f + 1, b :: rest =>
    if b < 128 then Char.ofNat b :: utf8LossyAux f rest
    else if 194 ≤ b && b ≤ 223 then
      match rest with
      | b2 :: rest2 =>
        if isCont b2 then Char.ofNat ((b - 192) * 64 + (b2 - 128)) :: utf8LossyAux f rest2
        else replChar :: utf8LossyAux f rest
      | [] => [replChar]
    else if 224 ≤ b && b ≤ 239 then
      match rest with
      | b2 :: b3 :: rest3 =>
        if isCont b2 && isCont b3 then
          let cp := (b - 224) * 4096 + (b2 - 128) * 64 + (b3 - 128)
          if cp < 2048 || (55296 ≤ cp && cp ≤ 57343) then
            replChar :: utf8LossyAux f rest3
          else Char.ofNat cp :: utf8LossyAux f rest3
        else replChar :: utf8LossyAux f rest
      | _ => replChar :: utf8LossyAux f rest
    else if 240 ≤ b && b ≤ 244 then
      match rest with
      | b2 :: b3 :: b4 :: rest4 =>
        if isCont b2 && isCont b3 && isCont b4 then
          let cp := (b - 240) * 262144 + (b2 - 128) * 4096 + (b3 - 128) * 64 + (b4 - 128)
          if cp < 65536 || 1114111 < cp then replChar :: utf8LossyAux f rest4
          else Char.ofNat cp :: utf8LossyAux f rest4
        else replChar :: utf8LossyAux f rest
      | _ => replChar :: utf8LossyAux f rest
    else replChar :: utf8LossyAux f rest

/-- Lossy UTF-8 decoding of a byte string, the model of
`OsStr::to_string_lossy` for Unix byte strings. -/
def utf8Lossy (bs : List Nat) : String := String.mk (utf8LossyAux bs.length bs)

/-- The byte 0x2F, the path separator. -/
def slashByte : Nat := 47

/-- Byte string of a relative path: its components joined by the path
separator. -/
def pathBytes (p : OsPath) : List Nat :=
  match p with
  | [] => []
  | [c] => c
  | c :: rest => c ++ slashByte :: pathBytes rest

/-- Model of `Path::to_string_lossy` applied to a relative path. -/
def pathToLossy (p : OsPath) : String := utf8Lossy (pathBytes p)

/-- UTF-8 bytes of a Lean string, for writing concrete paths. -/
def strBytes (s : String) : OsStr := s.toUTF8.toList.map (fun b => b.toNat)

/-- A compiled glob pattern (`glob::Pattern`): an external collaborator,
modelled as a black-box predicate on strings. -/
structure GlobPattern where
  matches_ : String → Bool

/-- A compiled regular expression (`regex::Regex`): an external
collaborator, modelled as a black-box predicate on strings. -/
structure RegexPattern where
  is_match : String → Bool

/-- Model of `fn path_matches_include(include: &[glob::Pattern], path: &Path) -> bool`
from src/explorer.rs: true when the glob list is empty, otherwise true
iff any glob matches the lossy string of the path. -/
def path_matches_include (globs : List GlobPattern) (path : OsPath) : Bool :=
  if globs.isEmpty then true
  else
    let path_str := pathToLossy path
    globs.any fun pattern => pattern.matches_ path_str

/-- Model of `fn path_matches_include_regex(include: &[regex::Regex], path: &Path) -> bool`
from src/explorer.rs: true when the regex list is empty, otherwise true
iff any regex matches the lossy string of the path. -/
def path_matches_include_regex (regexes : List RegexPattern) (path : OsPath) : Bool :=
  if regexes.isEmpty then true
  else
    let path_str := pathToLossy path
    regexes.any fun pattern => pattern.is_match path_str

/-- The `should_include` expression of `Explorer::iter_cgroups_v1`
(src/explorer.rs lines 131-133): glob filter OR regex filter. -/
def v1_should_include (globs : List GlobPattern) (regexes : List RegexPattern)
    (relative_path : OsPath) : Bool :=
  path_matches_include globs relative_path
    || path_matches_include_regex regexes relative_path

/-- The acceptance decision of `CgroupsV2Iterator::next`
(src/explorer.rs lines 167-173): the entry is yielded only when the glob
filter passes AND the regex filter passes (each guard is a separate
`continue`). -/
def v2_should_include (globs : List GlobPattern) (regexes : List RegexPattern)
    (relative_path : OsPath) : Bool :=
  path_matches_include globs relative_path
    && path_matches_include_regex regexes relative_path

/-- Error of the compiler of one glob pattern (`glob::PatternError`): an
external collaborator; `msg` is its `to_string()` rendering. -/
structure GlobError where
  msg : String

/-- Error of the compiler of one regex (`regex::Error`): an external
collaborator; `msg` is its `to_string()` rendering. -/
structure RegexError where
  msg : String

/-- Model of `ExplorerBuilderError` generated by `derive_builder`. -/
inductive ExplorerBuilderError where
  | UninitializedField (name : String)
  | ValidationError (msg : String)
deriving DecidableEq

/-- Model of `fn parse_include(include: Vec<String>) -> Result<Vec<glob::Pattern>, ExplorerBuilderError>`
from src/explorer.rs.  The compiler `glob::Pattern::new` is the external
collaborator `compile`; the `collect` over `Result` values short-circuits
at the first failing pattern, mapping its error through `to_string`. -/
def parse_include (compile : String → Except GlobError GlobPattern)
    (include_ : List String) : Except ExplorerBuilderError (List GlobPattern) :=
  if include_.isEmpty then .ok []
  else
    include_.mapM fun s =>
      match compile s with
      | .ok p => .ok p
      | .error e => .error (ExplorerBuilderError.ValidationError e.msg)

/-- Model of `fn parse_include_regex(include: Vec<String>) -> Result<Vec<regex::Regex>, ExplorerBuilderError>`
from src/explorer.rs, with `regex::Regex::new` as the collaborator. -/
def parse_include_regex (compile : String → Except RegexError RegexPattern)
    (include_ : List String) : Except ExplorerBuilderError (List RegexPattern) :=
  if include_.isEmpty then .ok []
  else
    include_.mapM fun s =>
      match compile s with
      | .ok p => .ok p
      | .error e => .error (ExplorerBuilderError.ValidationError e.msg)

/-- A walk error (`walkdir::Error`): external collaborator, opaque. -/
structure WalkError where
  msg : String

/-- A successful walk item (`walkdir::DirEntry`): its absolute path and
whether `file_type().is_dir()` holds. -/
structure WalkEntryR where
  path : OsPath
  is_dir : Bool

/-- Model of `Path::strip_prefix`: strip the base components when they
are a prefix of the path, otherwise fail. -/
def relativeTo (base p : OsPath) : Option OsPath :=
  if base.isPrefixOf p then some (p.drop base.length) else none

/-- State of `CgroupsV2Iterator`: the remaining walkdir stream together
with the filter configuration and the base path (hierarchy root). -/
structure CgroupsV2Iterator where
  walker : List (Except WalkError WalkEntryR)
  include_ : List GlobPattern
  include_regex : List RegexPattern
  base_path : OsPath

/-- One pull of `CgroupsV2Iterator::next` (src/explorer.rs lines
152-180), written on the walker stream: skip non-directories, entries
whose path is not under the base, the root itself, and filter-rejected
entries; return `none` at an error item or at exhaustion; yield the
relative path otherwise.  The second component is the remaining
stream. -/
def v2_next_aux (globs : List GlobPattern) (regexes : List RegexPattern) (base : OsPath) :
    List (Except WalkError WalkEntryR) →
    Option OsPath × List (Except WalkError WalkEntryR)
  | [] => (none, [])
  | .error _ :: rest => (none, rest)
  | .ok entry :: rest =>
    if !entry.is_dir then v2_next_aux globs regexes base rest
    else
      match relativeTo base entry.path with
      | none => v2_next_aux globs regexes base rest
      | some relative_path =>
        if relative_path.length = 0 then v2_next_aux globs regexes base rest
        else if !path_matches_include globs relative_path then
          v2_next_aux globs regexes base rest
        else if !path_matches_include_regex regexes relative_path then
          v2_next_aux globs regexes base rest
        else (some relative_path, rest)

/-- `CgroupsV2Iterator::next` on the iterator state. -/
def CgroupsV2Iterator.next (it : CgroupsV2Iterator) :
    Option OsPath × CgroupsV2Iterator :=
  match v2_next_aux it.include_ it.include_regex it.base_path it.walker with
  | (r, rest) => (r, { it with walker := rest })

/-- The sequence of candidates a conforming consumer reads from the V2
iterator: repeated pulls until the first end-of-sequence signal.  It is
proved below (`v2_candidates_eq_next`) to be exactly the unfolding of
`v2_next_aux`. -/
def v2_candidates (globs : List GlobPattern) (regexes : List RegexPattern) (base : OsPath) :
    List (Except WalkError WalkEntryR) → List OsPath
  | [] => []
  | .error _ :: _ => []
  | .ok entry :: rest =>
    if !entry.is_dir then v2_candidates globs regexes base rest
    else
      match relativeTo base entry.path with
      | none => v2_candidates globs regexes base rest
      | some relative_path =>
        if relative_path.length = 0 then v2_candidates globs regexes base rest
        else if !path_matches_include globs relative_path then
          v2_candidates globs regexes base rest
        else if !path_matches_include_regex regexes relative_path then
          v2_candidates globs regexes base rest
        else relative_path :: v2_candidates globs regexes base rest

/-- Insertion into the deduplicating set (`HashSet::insert`), modelled
as a list kept free of duplicates. -/
def insertAbsent (p : OsPath) (acc : List OsPath) : List OsPath :=
  if p ∈ acc then acc else acc ++ [p]

/-- The body of the per-entry loop of `Explorer::iter_cgroups_v1`
(src/explorer.rs lines 119-140): an error item is skipped (`continue`),
a successful item is accepted into the set when it is a directory,
strictly below the controller root, and passes `should_include`. -/
def v1_process_entry (globs : List GlobPattern) (regexes : List RegexPattern)
    (base_controller_path : OsPath) (acc : List OsPath)
    (item : Except WalkError WalkEntryR) : List OsPath :=
  match item with
  | .error _ => acc
  | .ok entry =>
    if !entry.is_dir then acc
    else
      match relativeTo base_controller_path entry.path with
      | none => acc
      | some relative_path =>
        if relative_path.length = 0 then acc
        else if v1_should_include globs regexes relative_path then
          insertAbsent relative_path acc
        else acc

/-- A V1 subsystem: its controller name and the walkdir stream of its
subtree (the external walker over `root/<controller>`). -/
structure SubsystemWalk where
  controller_name : OsStr
  stream : List (Except WalkError WalkEntryR)

/-- Model of `Explorer::iter_cgroups_v1` (src/explorer.rs lines
106-146): every subsystem's walk feeds the shared deduplicating set; the
resulting list is the discovered set handed to `CgroupsV1Iterator`. -/
def iter_cgroups_v1 (globs : List GlobPattern) (regexes : List RegexPattern)
    (base : OsPath) (subsystems : List SubsystemWalk) : List OsPath :=
  subsystems.foldl
    (fun acc sub =>
      sub.stream.foldl
        (v1_process_entry globs regexes (base ++ [sub.controller_name])) acc)
    []

/-- A node of a directory tree: a plain file, or a directory with its
entries as readdir returns them (name and subtree, in no particular
order). -/
inductive FsNode where
  | file
  | dir (children : List (OsStr × FsNode))

/-- Whether a node is a directory (`file_type().is_dir()`). -/
def isDirNode : FsNode → Bool
  | .file => false
  | .dir _ => true

/-- Strict lexicographic order on byte strings, the file-name order
`sort_by_file_name` sorts by. -/
def osLt : OsStr → OsStr → Bool
  | [], [] => false
  | [], _ :: _ => true
  | _ :: _, [] => false
  | a :: as, b :: bs => a < b || (a == b && osLt as bs)

/-- Reflexive lexicographic order on byte strings. -/
def osLe (a b : OsStr) : Bool := osLt a b || a == b

/-- Order of directory entries by file name. -/
def leEntry (a b : OsStr × FsNode) : Prop := osLe a.1 b.1 = true

instance : DecidableRel leEntry := fun a b =>
  inferInstanceAs (Decidable (osLe a.1 b.1 = true))

/-- `sort_by_file_name` on one directory's entries. -/
def sortEntries (l : List (OsStr × FsNode)) : List (OsStr × FsNode) :=
  l.insertionSort leEntry

mutual

/-- The tree as walkdir visits it under `sort_by_file_name`: every
directory's entries sorted by name, recursively. -/
def sortTree : FsNode → FsNode
  | .file => .file
  | .dir cs => .dir (sortEntries (sortChildren cs))

/-- Recursively sort the subtrees of a list of entries. -/
def sortChildren : List (OsStr × FsNode) → List (OsStr × FsNode)
  | [] => []
  | (n, c) :: rest => (n, sortTree c) :: sortChildren rest

end

mutual

/-- Depth-first preorder walk of the entries strictly below a node, in
stored order: each entry's path relative to the node, with its
directory flag.  Together with `sortTree` this is `WalkDir` with
`min_depth(1)` and `sort_by_file_name`. -/
def walkEntries : FsNode → List (OsPath × Bool)
  | .file => []
  | .dir cs => walkChildren cs

/-- Walk a list of entries: emit each entry, then its subtree's entries
prefixed with its name, then the remaining entries. -/
def walkChildren : List (OsStr × FsNode) → List (OsPath × Bool)
  | [] => []
  | (n, c) :: rest =>
    ([n], isDirNode c) :: ((walkEntries c).map fun e => (n :: e.1, e.2))
      ++ walkChildren rest

end

/-- The walkdir stream over a tree rooted at `base`: all items succeed,
each with its absolute path. -/
def treeStream (base : OsPath) (t : FsNode) : List (Except WalkError WalkEntryR) :=
  (walkEntries (sortTree t)).map fun e => .ok ⟨base ++ e.1, e.2⟩

/-- Model of one full V2 enumeration (`Explorer::iter_cgroups_v2`
followed by pulls of `CgroupsV2Iterator::next` until the end signal) on
a directory tree rooted at `base`. -/
def iter_cgroups_v2_tree (globs : List GlobPattern) (regexes : List RegexPattern)
    (base : OsPath) (t : FsNode) : List OsPath :=
  v2_candidates globs regexes base (treeStream base t)

/-- The path `p` names a strict-descendant entry of the tree with the
given directory flag: built by following stored children. -/
inductive DescEntry : FsNode → OsPath → Bool → Prop where
  | here {cs : List (OsStr × FsNode)} {n : OsStr} {c : FsNode}
      (hm : (n, c) ∈ cs) : DescEntry (.dir cs) [n] (isDirNode c)
  | there {cs : List (OsStr × FsNode)} {n : OsStr} {c : FsNode} {p : OsPath} {d : Bool}
      (hm : (n, c) ∈ cs) (h : DescEntry c p d) : DescEntry (.dir cs) (n :: p) d

/-- The path `p` names a strict-descendant directory of the tree. -/
def DescDir (t : FsNode) (p : OsPath) : Prop := DescEntry t p true

/-- The entry names of one directory are pairwise distinct. -/
def nodupKeys : List (OsStr × FsNode) → Bool
  | [] => true
  | (n, _) :: rest => !(rest.any fun e => e.1 == n) && nodupKeys rest

mutual

/-- No two entries of any directory of the tree share a name (true of
every real directory tree). -/
def nodupTree : FsNode → Bool
  | .file => true
  | .dir cs => nodupKeys cs && nodupForest cs

/-- `nodupTree` for every subtree of a list of entries. -/
def nodupForest : List (OsStr × FsNode) → Bool
  | [] => true
  | (_, c) :: rest => nodupTree c && nodupForest rest

end

/-- Two trees describe the same directory structure up to the order in
which readdir lists each directory (the only variation between two
consecutive walks of an unchanged tree). -/
inductive TEq : FsNode → FsNode → Prop where
  | file : TEq .file .file
  | dirNil : TEq (.dir []) (.dir [])
  | dirCons {n : OsStr} {c₁ c₂ : FsNode} {l₁ l₂ : List (OsStr × FsNode)}
      (hc : TEq c₁ c₂) (hl : TEq (.dir l₁) (.dir l₂)) :
      TEq (.dir ((n, c₁) :: l₁)) (.dir ((n, c₂) :: l₂))
  | dirSwap {a b : OsStr × FsNode} {l : List (OsStr × FsNode)} :
      TEq (.dir (a :: b :: l)) (.dir (b :: a :: l))
  | trans {t₁ t₂ t₃ : FsNode} (h₁ : TEq t₁ t₂) (h₂ : TEq t₂ t₃) : TEq t₁ t₃

/-- Depth-first lexicographic order on relative paths: the order in
which a sorted depth-first walk emits them. -/
def pathLtB : OsPath → OsPath → Bool
  | [], [] => false
  | [], _ :: _ => true
  | _ :: _, [] => false
  | a :: as, b :: bs => osLt a b || (a == b && pathLtB as bs)

/-- The names of a list of directory entries. -/
def entryKeys (l : List (OsStr × FsNode)) : List OsStr := l.map Prod.fst

/-- The names of the immediate entries of a node. -/
def treeKeys : FsNode → List OsStr
  | .file => []
  | .dir cs => entryKeys cs

/-- Strict order of directory entries by file name. -/
def ltEntry (a b : OsStr × FsNode) : Prop := osLt a.1 b.1 = true

theorem osLt_irrefl (a : OsStr) : osLt a a = false := by
  induction a with
  | nil => rfl
  | cons x xs ih => simp [osLt, ih]

theorem osLt_trans : ∀ {a b c : OsStr}, osLt a b = true → osLt b c = true → osLt a c = true := by
  intro a
  induction a with
  | nil =>
    intro b c hab hbc
    cases b with
    | nil => simp [osLt] at hab
    | cons y ys =>
      cases c with
      | nil => simp [osLt] at hbc
      | cons z zs => simp [osLt]
  | cons x xs ih =>
    intro b c hab hbc
    cases b with
    | nil => simp [osLt] at hab
    | cons y ys =>
      cases c with
      | nil => simp [osLt] at hbc
      | cons z zs =>
        simp only [osLt, Bool.or_eq_true, Bool.and_eq_true, beq_iff_eq,
          decide_eq_true_eq] at hab hbc ⊢
        rcases hab with h1 | ⟨rfl, h1⟩
        · rcases hbc with h2 | ⟨rfl, h2⟩
          · exact Or.inl (Nat.lt_trans h1 h2)
          · exact Or.inl h1
        · rcases hbc with h2 | ⟨rfl, h2⟩
          · exact Or.inl h2
          · exact Or.inr ⟨rfl, ih h1 h2⟩

theorem osLt_asymm {a b : OsStr} (h₁ : osLt a b = true) (h₂ : osLt b a = true) : False := by
  have := osLt_trans h₁ h₂
  rw [osLt_irrefl] at this
  exact Bool.false_ne_true this

theorem osLt_tri (a b : OsStr) : osLt a b = true ∨ osLt b a = true ∨ a = b := by
  induction a generalizing b with
  | nil =>
    cases b with
    | nil => right; right; rfl
    | cons y ys => left; rfl
  | cons x xs ih =>
    cases b with
    | nil => right; left; rfl
    | cons y ys =>
      rcases Nat.lt_trichotomy x y with h | h | h
      · left; simp [osLt, h]
      · subst h
        rcases ih ys with h' | h' | h'
        · left; simp [osLt, h']
        · right; left; simp [osLt, h']
        · right; right; rw [h']
      · right; left; simp [osLt, h]

theorem osLe_total (a b : OsStr) : osLe a b = true ∨ osLe b a = true := by
  unfold osLe
  rcases osLt_tri a b with h | h | h
  · left; simp [h]
  · right; simp [h]
  · left; simp [h]

theorem osLe_trans {a b c : OsStr} (h₁ : osLe a b = true) (h₂ : osLe b c = true) :
    osLe a c = true := by
  unfold osLe at h₁ h₂ ⊢
  simp only [Bool.or_eq_true, beq_iff_eq] at h₁ h₂ ⊢
  rcases h₁ with h₁ | rfl
  · rcases h₂ with h₂ | rfl
    · exact Or.inl (osLt_trans h₁ h₂)
    · exact Or.inl h₁
  · exact h₂

theorem osLt_of_le_of_ne {a b : OsStr} (h : osLe a b = true) (hne : a ≠ b) :
    osLt a b = true := by
  unfold osLe at h
  simp only [Bool.or_eq_true, beq_iff_eq] at h
  rcases h with h | rfl
  · exact h
  · exact absurd rfl hne

instance : IsTotal (OsStr × FsNode) leEntry := ⟨fun a b => osLe_total a.1 b.1⟩

instance : IsTrans (OsStr × FsNode) leEntry := ⟨fun _ _ _ => osLe_trans⟩

instance : IsAntisymm (OsStr × FsNode) ltEntry :=
  ⟨fun _ _ h₁ h₂ => (osLt_asymm h₁ h₂).elim⟩

theorem nodupKeys_iff (l : List (OsStr × FsNode)) :
    nodupKeys l = true ↔ (entryKeys l).Nodup := by
  induction l with
  | nil => simp [nodupKeys, entryKeys]
  | cons e rest ih =>
    obtain ⟨n, c⟩ := e
    simp only [nodupKeys, Bool.and_eq_true, entryKeys, List.map_cons, List.nodup_cons,
      List.mem_map, ih]
    simp only [List.any_eq_true, Bool.not_eq_true', List.any_eq_false, beq_iff_eq,
      beq_eq_false_iff_ne, ne_eq]
    aesop

theorem pairwise_ltEntry_of_le {L : List (OsStr × FsNode)}
    (hle : L.Pairwise leEntry) (hnd : (entryKeys L).Nodup) : L.Pairwise ltEntry := by
  have hne : L.Pairwise fun a b => a.1 ≠ b.1 := by
    have h' : (L.map Prod.fst).Nodup := hnd
    have := List.pairwise_map.mp h'
    exact this.imp fun h => h
  exact (hle.and hne).imp fun h => osLt_of_le_of_ne h.1 h.2

/-- Two sorted duplicate-free-keyed permutations of the same entries are
equal: the file-name sort of one directory's entries is unique. -/
theorem sorted_entries_unique {l₁ l₂ : List (OsStr × FsNode)} (hp : l₁.Perm l₂)
    (hs₁ : l₁.Pairwise leEntry) (hs₂ : l₂.Pairwise leEntry)
    (hnd : nodupKeys l₁ = true) : l₁ = l₂ := by
  have hnd₁ : (entryKeys l₁).Nodup := (nodupKeys_iff l₁).mp hnd
  have hkp : (entryKeys l₁).Perm (entryKeys l₂) := hp.map Prod.fst
  have hnd₂ : (entryKeys l₂).Nodup := hkp.nodup_iff.mp hnd₁
  exact List.eq_of_perm_of_sorted hp
    (pairwise_ltEntry_of_le hs₁ hnd₁) (pairwise_ltEntry_of_le hs₂ hnd₂)

theorem sortEntries_perm (l : List (OsStr × FsNode)) : (sortEntries l).Perm l :=
  List.perm_insertionSort leEntry l

theorem sortEntries_sorted (l : List (OsStr × FsNode)) :
    (sortEntries l).Pairwise leEntry :=
  List.sorted_insertionSort leEntry l

theorem sortChildren_keys (l : List (OsStr × FsNode)) :
    entryKeys (sortChildren l) = entryKeys l := by
  induction l with
  | nil => rfl
  | cons e rest ih =>
    obtain ⟨n, c⟩ := e
    simp [sortChildren, entryKeys] at ih ⊢
    exact ih

theorem mem_sortChildren {x : OsStr × FsNode} {l : List (OsStr × FsNode)} :
    x ∈ sortChildren l ↔ ∃ e ∈ l, x = (e.1, sortTree e.2) := by
  induction l with
  | nil => simp [sortChildren]
  | cons e rest ih =>
    obtain ⟨n, c⟩ := e
    simp only [sortChildren, List.mem_cons, ih]
    constructor
    · rintro (rfl | ⟨e, he, rfl⟩)
      · exact ⟨(n, c), Or.inl rfl, rfl⟩
      · exact ⟨e, Or.inr he, rfl⟩
    · rintro ⟨e, (rfl | he), rfl⟩
      · exact Or.inl rfl
      · exact Or.inr ⟨e, he, rfl⟩

theorem TEq.keys_perm {t₁ t₂ : FsNode} (h : TEq t₁ t₂) :
    (treeKeys t₁).Perm (treeKeys t₂) := by
  induction h with
  | file => exact List.Perm.refl _
  | dirNil => exact List.Perm.refl _
  | dirCons hc hl ihc ihl => exact List.Perm.cons _ ihl
  | dirSwap => exact List.Perm.swap _ _ _
  | trans h₁ h₂ ih₁ ih₂ => exact ih₁.trans ih₂

theorem nodupForest_of_mem {cs : List (OsStr × FsNode)} {n : OsStr} {c : FsNode}
    (hm : (n, c) ∈ cs) (h : nodupForest cs = true) : nodupTree c = true := by
  induction cs with
  | nil => cases hm
  | cons e rest ih =>
    obtain ⟨m, c'⟩ := e
    rw [nodupForest, Bool.and_eq_true] at h
    rcases List.mem_cons.mp hm with he | he
    · cases he; exact h.1
    · exact ih he h.2

theorem nodupTree_dir {cs : List (OsStr × FsNode)} :
    nodupTree (.dir cs) = true ↔ nodupKeys cs = true ∧ nodupForest cs = true := by
  rw [nodupTree, Bool.and_eq_true]

theorem nodupKeys_cons {n : OsStr} {c : FsNode} {rest : List (OsStr × FsNode)} :
    nodupKeys ((n, c) :: rest) = true ↔
      (∀ e ∈ rest, e.1 ≠ n) ∧ nodupKeys rest = true := by
  rw [nodupKeys]
  simp [List.any_eq_true]

theorem TEq.nodup_transfer {t₁ t₂ : FsNode} (h : TEq t₁ t₂)
    (hnd : nodupTree t₁ = true) : nodupTree t₂ = true := by
  induction h with
  | file => exact hnd
  | dirNil => exact hnd
  | dirCons hc hl ihc ihl =>
    rename_i n c₁ c₂ l₁ l₂
    rw [nodupTree_dir] at hnd ⊢
    obtain ⟨hk, hf⟩ := hnd
    rw [nodupKeys_cons] at hk
    rw [nodupForest, Bool.and_eq_true] at hf
    have hl₂ : nodupTree (.dir l₂) = true := by
      apply ihl
      rw [nodupTree_dir]
      exact ⟨hk.2, hf.2⟩
    rw [nodupTree_dir] at hl₂
    constructor
    · rw [nodupKeys_cons]
      refine ⟨?_, hl₂.1⟩
      intro e he
      have hkp : (entryKeys l₂).Perm (entryKeys l₁) := by
        have := hl.keys_perm
        simpa [treeKeys] using this.symm
      have : e.1 ∈ entryKeys l₁ := hkp.subset (by exact List.mem_map_of_mem Prod.fst he)
      obtain ⟨e', he', heq⟩ := List.mem_map.mp this
      intro hcontra
      exact hk.1 e' he' (heq.trans hcontra)
    · rw [nodupForest, Bool.and_eq_true]
      exact ⟨ihc hf.1, hl₂.2⟩
  | dirSwap =>
    rename_i a b l
    rw [nodupTree_dir] at hnd ⊢
    obtain ⟨hk, hf⟩ := hnd
    obtain ⟨na, ca⟩ := a
    obtain ⟨nb, cb⟩ := b
    rw [nodupKeys_cons] at hk
    obtain ⟨hka, hk⟩ := hk
    rw [nodupKeys_cons] at hk
    obtain ⟨hkb, hk⟩ := hk
    rw [nodupForest, Bool.and_eq_true] at hf
    obtain ⟨hfa, hf⟩ := hf
    rw [nodupForest, Bool.and_eq_true] at hf
    obtain ⟨hfb, hf⟩ := hf
    constructor
    · rw [nodupKeys_cons]
      constructor
      · intro e he
        rcases List.mem_cons.mp he with rfl | he
        · exact fun hc => hka (nb, cb) (List.mem_cons_self _ _) hc.symm
        · exact hkb e he
      · rw [nodupKeys_cons]
        exact ⟨fun e he => hka e (List.mem_cons_of_mem _ he), hk⟩
    · rw [nodupForest, Bool.and_eq_true]
      refine ⟨hfb, ?_⟩
      rw [nodupForest, Bool.and_eq_true]
      exact ⟨hfa, hf⟩
  | trans h₁ h₂ ih₁ ih₂ => exact ih₂ (ih₁ hnd)

theorem sortEntries_cons (x : OsStr × FsNode) (l : List (OsStr × FsNode)) :
    sortEntries (x :: l) = List.orderedInsert leEntry x (sortEntries l) := by
  simp [sortEntries, List.insertionSort]

theorem nodupKeys_sortEntries {l : List (OsStr × FsNode)}
    (h : nodupKeys l = true) : nodupKeys (sortEntries l) = true := by
  rw [nodupKeys_iff] at h ⊢
  exact (((sortEntries_perm l).map Prod.fst).nodup_iff).mpr h

/-- Two readdir presentations of the same unchanged tree sort to the
same tree: the file-name sort cancels the readdir order. -/
theorem TEq.sortTree_eq {t₁ t₂ : FsNode} (h : TEq t₁ t₂)
    (hnd : nodupTree t₁ = true) : sortTree t₁ = sortTree t₂ := by
  induction h with
  | file => rfl
  | dirNil => rfl
  | dirCons hc hl ihc ihl =>
    rename_i n c₁ c₂ l₁ l₂
    rw [nodupTree_dir] at hnd
    obtain ⟨hk, hf⟩ := hnd
    rw [nodupKeys_cons] at hk
    rw [nodupForest, Bool.and_eq_true] at hf
    have h1 : sortTree c₁ = sortTree c₂ := ihc hf.1
    have h2 : sortTree (.dir l₁) = sortTree (.dir l₂) := by
      apply ihl
      rw [nodupTree_dir]
      exact ⟨hk.2, hf.2⟩
    simp only [sortTree, FsNode.dir.injEq] at h2
    simp only [sortTree, sortChildren, sortEntries_cons, h1, h2]
  | dirSwap =>
    rename_i a b l
    rw [nodupTree_dir] at hnd
    obtain ⟨hk, hf⟩ := hnd
    obtain ⟨na, ca⟩ := a
    obtain ⟨nb, cb⟩ := b
    simp only [sortTree, sortChildren, FsNode.dir.injEq]
    apply sorted_entries_unique
    · exact ((sortEntries_perm _).trans (List.Perm.swap _ _ _)).trans (sortEntries_perm _).symm
    · exact sortEntries_sorted _
    · exact sortEntries_sorted _
    · apply nodupKeys_sortEntries
      rw [nodupKeys_iff] at hk ⊢
      have h1 : entryKeys ((na, sortTree ca) :: (nb, sortTree cb) :: sortChildren l)
          = na :: nb :: entryKeys (sortChildren l) := rfl
      have h2 : entryKeys ((na, ca) :: (nb, cb) :: l) = na :: nb :: entryKeys l := rfl
      rw [h1, sortChildren_keys]
      rw [h2] at hk
      exact hk
  | trans h₁ h₂ ih₁ ih₂ => exact (ih₁ hnd).trans (ih₂ (h₁.nodup_transfer hnd))

theorem sizeOf_child_lt {cs : List (OsStr × FsNode)} {n : OsStr} {c : FsNode}
    (h : (n, c) ∈ cs) : sizeOf c < sizeOf (FsNode.dir cs) := by
  have h1 := List.sizeOf_lt_of_mem h
  simp only [FsNode.dir.sizeOf_spec]
  simp only [Prod.mk.sizeOf_spec] at h1
  omega

theorem sizeOf_node_pos (t : FsNode) : 0 < sizeOf t := by
  cases t <;> simp

theorem isDirNode_sortTree (t : FsNode) : isDirNode (sortTree t) = isDirNode t := by
  cases t <;> simp [sortTree, isDirNode]


theorem walkChildren_nil : walkChildren [] = [] := by
  rw [walkChildren]

theorem walkChildren_cons (n : OsStr) (c : FsNode) (rest : List (OsStr × FsNode)) :
    walkChildren ((n, c) :: rest) =
      ([n], isDirNode c) :: ((walkEntries c).map fun e => (n :: e.1, e.2))
        ++ walkChildren rest := by
  rw [walkChildren]

theorem walkEntries_file : walkEntries .file = [] := by
  rw [walkEntries]

theorem walkEntries_dir (cs : List (OsStr × FsNode)) :
    walkEntries (.dir cs) = walkChildren cs := by
  rw [walkEntries]

theorem walkChildren_ne_nil {l : List (OsStr × FsNode)} {p : OsPath} {d : Bool}
    (h : (p, d) ∈ walkChildren l) : p ≠ [] := by
  induction l with
  | nil => simp [walkChildren_nil] at h
  | cons e rest ih =>
    obtain ⟨n, c⟩ := e
    simp only [walkChildren_cons, List.mem_cons, List.mem_append, List.mem_map] at h
    rcases h with (h | h) | h
    · rw [Prod.mk.injEq] at h
      rw [h.1]
      simp
    · obtain ⟨a, _, heq⟩ := h
      rw [Prod.mk.injEq] at heq
      rw [← heq.1]
      simp
    · exact ih h

theorem walkEntries_ne_nil {t : FsNode} {p : OsPath} {d : Bool}
    (h : (p, d) ∈ walkEntries t) : p ≠ [] := by
  cases t with
  | file => simp [walkEntries_file] at h
  | dir cs =>
    rw [walkEntries_dir] at h
    exact walkChildren_ne_nil h

theorem walkChildren_head {l : List (OsStr × FsNode)} {p : OsPath} {d : Bool}
    (h : (p, d) ∈ walkChildren l) : ∃ n c q, (n, c) ∈ l ∧ p = n :: q := by
  induction l with
  | nil => simp [walkChildren_nil] at h
  | cons e rest ih =>
    obtain ⟨n, c⟩ := e
    simp only [walkChildren_cons, List.mem_cons, List.mem_append, List.mem_map] at h
    rcases h with (h | h) | h
    · rw [Prod.mk.injEq] at h
      exact ⟨n, c, [], List.mem_cons_self _ _, h.1⟩
    · obtain ⟨a, _, heq⟩ := h
      rw [Prod.mk.injEq] at heq
      exact ⟨n, c, a.1, List.mem_cons_self _ _, heq.1.symm⟩
    · obtain ⟨m, c', q, hm, hp⟩ := ih h
      exact ⟨m, c', q, List.mem_cons_of_mem _ hm, hp⟩

theorem descEntry_file {p : OsPath} {d : Bool} : ¬ DescEntry .file p d := by
  intro h
  cases h

theorem mem_walkChildren_iff (cs : List (OsStr × FsNode))
    (IH : ∀ n c, (n, c) ∈ cs → ∀ p d, ((p, d) ∈ walkEntries c ↔ DescEntry c p d))
    (p : OsPath) (d : Bool) :
    (p, d) ∈ walkChildren cs ↔ DescEntry (.dir cs) p d := by
  induction cs with
  | nil =>
    constructor
    · intro h
      simp [walkChildren_nil] at h
    · intro h
      cases h with
      | here hm => cases hm
      | there hm _ => cases hm
  | cons e rest ih =>
    obtain ⟨n, c⟩ := e
    have IHrest : ∀ n' c', (n', c') ∈ rest →
        ∀ p' d', ((p', d') ∈ walkEntries c' ↔ DescEntry c' p' d') :=
      fun n' c' hm => IH n' c' (List.mem_cons_of_mem _ hm)
    constructor
    · intro h
      simp only [walkChildren_cons, List.mem_cons, List.mem_append, List.mem_map] at h
      rcases h with (h | h) | h
      · rw [Prod.mk.injEq] at h
        rw [h.1, h.2]
        exact DescEntry.here (List.mem_cons_self _ _)
      · obtain ⟨a, ha, heq⟩ := h
        rw [Prod.mk.injEq] at heq
        have hd : DescEntry c a.1 a.2 :=
          (IH n c (List.mem_cons_self _ _) a.1 a.2).mp (by rw [Prod.mk.eta]; exact ha)
        rw [← heq.1, ← heq.2]
        exact DescEntry.there (List.mem_cons_self _ _) hd
      · have := (ih IHrest).mp h
        cases this with
        | here hm => exact DescEntry.here (List.mem_cons_of_mem _ hm)
        | there hm h' => exact DescEntry.there (List.mem_cons_of_mem _ hm) h'
    · intro h
      simp only [walkChildren_cons, List.mem_cons, List.mem_append, List.mem_map]
      cases h with
      | @here _ n' c' hm =>
        rcases List.mem_cons.mp hm with heq | hm'
        · rw [Prod.mk.injEq] at heq
          left; left
          rw [Prod.mk.injEq, heq.1, heq.2]
          exact ⟨rfl, rfl⟩
        · right
          exact (ih IHrest).mpr (DescEntry.here hm')
      | @there _ n' c' q _ hm h' =>
        rcases List.mem_cons.mp hm with heq | hm'
        · rw [Prod.mk.injEq] at heq
          left; right
          refine ⟨(q, d), ?_, ?_⟩
          · exact (IH n c (List.mem_cons_self _ _) q d).mpr (heq.2 ▸ h')
          · rw [Prod.mk.injEq]
            exact ⟨by rw [heq.1], rfl⟩
        · right
          exact (ih IHrest).mpr (DescEntry.there hm' h')

theorem mem_walkEntries_aux :
    ∀ (N : Nat) (t : FsNode), sizeOf t ≤ N →
      ∀ p d, ((p, d) ∈ walkEntries t ↔ DescEntry t p d) := by
  intro N
  induction N with
  | zero =>
    intro t ht
    exact absurd ht (by have := sizeOf_node_pos t; omega)
  | succ N ihN =>
    intro t ht p d
    cases t with
    | file =>
      simp only [walkEntries_file, List.not_mem_nil]
      exact ⟨fun h => h.elim, fun h => descEntry_file h⟩
    | dir cs =>
      rw [walkEntries_dir]
      apply mem_walkChildren_iff
      intro n c hm p' d'
      apply ihN
      have h1 := sizeOf_child_lt hm
      have h2 : sizeOf (FsNode.dir cs) ≤ N + 1 := ht
      omega

/-- Membership in the depth-first walk characterises strict-descendant
entries of the tree. -/
theorem mem_walkEntries (t : FsNode) (p : OsPath) (d : Bool) :
    (p, d) ∈ walkEntries t ↔ DescEntry t p d :=
  mem_walkEntries_aux (sizeOf t) t le_rfl p d

theorem descEntry_sortTree_aux :
    ∀ (N : Nat) (t : FsNode), sizeOf t ≤ N →
      ∀ p d, (DescEntry (sortTree t) p d ↔ DescEntry t p d) := by
  intro N
  induction N with
  | zero =>
    intro t ht
    exact absurd ht (by have := sizeOf_node_pos t; omega)
  | succ N ihN =>
    intro t ht p d
    cases t with
    | file => rw [show sortTree .file = .file from rfl]
    | dir cs =>
      rw [sortTree]
      constructor
      · intro h
        cases h with
        | @here _ n c' hm =>
          have hm' : (n, c') ∈ sortChildren cs := (sortEntries_perm _).subset hm
          obtain ⟨e, he, heq⟩ := mem_sortChildren.mp hm'
          rw [Prod.mk.injEq] at heq
          have : isDirNode c' = isDirNode e.2 := by
            rw [heq.2, isDirNode_sortTree]
          rw [this, heq.1]
          exact DescEntry.here (by simpa using he)
        | @there _ n c' q _ hm h' =>
          have hm' : (n, c') ∈ sortChildren cs := (sortEntries_perm _).subset hm
          obtain ⟨e, he, heq⟩ := mem_sortChildren.mp hm'
          rw [Prod.mk.injEq] at heq
          have hsz : sizeOf e.2 ≤ N := by
            have h1 := @sizeOf_child_lt cs e.1 e.2 (by simpa using he)
            have h2 : sizeOf (FsNode.dir cs) ≤ N + 1 := ht
            omega
          have hq : DescEntry e.2 q d := by
            apply (ihN e.2 hsz q d).mp
            rw [← heq.2]
            exact h'
          rw [heq.1]
          exact DescEntry.there (by simpa using he) hq
      · intro h
        cases h with
        | @here _ n c' hm =>
          have hmem : (n, sortTree c') ∈ sortEntries (sortChildren cs) :=
            (sortEntries_perm _).mem_iff.mpr (mem_sortChildren.mpr ⟨(n, c'), hm, rfl⟩)
          have : isDirNode c' = isDirNode (sortTree c') := (isDirNode_sortTree c').symm
          rw [this]
          exact DescEntry.here hmem
        | @there _ n c' q _ hm h' =>
          have hmem : (n, sortTree c') ∈ sortEntries (sortChildren cs) :=
            (sortEntries_perm _).mem_iff.mpr (mem_sortChildren.mpr ⟨(n, c'), hm, rfl⟩)
          have hsz : sizeOf c' ≤ N := by
            have h1 := sizeOf_child_lt hm
            have h2 : sizeOf (FsNode.dir cs) ≤ N + 1 := ht
            omega
          exact DescEntry.there hmem ((ihN c' hsz q _).mpr h')

/-- Sorting the tree does not change which strict-descendant entries it
has. -/
theorem descEntry_sortTree (t : FsNode) (p : OsPath) (d : Bool) :
    DescEntry (sortTree t) p d ↔ DescEntry t p d :=
  descEntry_sortTree_aux (sizeOf t) t le_rfl p d

theorem pathLtB_nil_cons (x : OsStr) (q : OsPath) : pathLtB [] (x :: q) = true := by
  simp [pathLtB]

theorem pathLtB_cons_self {n : OsStr} {q : OsPath} (hq : q ≠ []) :
    pathLtB [n] (n :: q) = true := by
  cases q with
  | nil => exact absurd rfl hq
  | cons x xs => simp [pathLtB]

theorem pathLtB_cons_lt {n m : OsStr} {q₁ q₂ : OsPath} (h : osLt n m = true) :
    pathLtB (n :: q₁) (m :: q₂) = true := by
  simp [pathLtB, h]

theorem pathLtB_cons_same {n : OsStr} {q₁ q₂ : OsPath} (h : pathLtB q₁ q₂ = true) :
    pathLtB (n :: q₁) (n :: q₂) = true := by
  simp [pathLtB, h]

theorem walkChildren_pairwise (L : List (OsStr × FsNode))
    (hk : L.Pairwise ltEntry)
    (hsub : ∀ n c, (n, c) ∈ L →
      List.Pairwise (fun p q => pathLtB p q = true) ((walkEntries c).map Prod.fst)) :
    List.Pairwise (fun p q => pathLtB p q = true) ((walkChildren L).map Prod.fst) := by
  induction L with
  | nil => simp [walkChildren_nil]
  | cons e rest ih =>
    obtain ⟨n, c⟩ := e
    obtain ⟨hhead, htail⟩ := List.pairwise_cons.mp hk
    rw [walkChildren_cons, List.cons_append, List.map_cons, List.map_append, List.map_map]
    rw [List.pairwise_cons]
    constructor
    · intro y hy
      rcases List.mem_append.mp hy with hy | hy
      · obtain ⟨a, ha, rfl⟩ := List.mem_map.mp hy
        exact pathLtB_cons_self (walkEntries_ne_nil ha)
      · obtain ⟨⟨p', d'⟩, hp', rfl⟩ := List.mem_map.mp hy
        obtain ⟨m, c', q, hmc, rfl⟩ := walkChildren_head hp'
        exact pathLtB_cons_lt (hhead (m, c') hmc)
    · rw [List.pairwise_append]
      refine ⟨?_, ?_, ?_⟩
      · rw [List.pairwise_map]
        have := List.pairwise_map.mp (hsub n c (List.mem_cons_self _ _))
        exact this.imp fun h => pathLtB_cons_same h
      · exact ih htail fun n' c' hm => hsub n' c' (List.mem_cons_of_mem _ hm)
      · intro x hx y hy
        obtain ⟨a, _, rfl⟩ := List.mem_map.mp hx
        obtain ⟨⟨p', d'⟩, hp', rfl⟩ := List.mem_map.mp hy
        obtain ⟨m, c', q, hmc, rfl⟩ := walkChildren_head hp'
        exact pathLtB_cons_lt (hhead (m, c') hmc)

theorem walk_sorted_aux :
    ∀ (N : Nat) (t : FsNode), sizeOf t ≤ N → nodupTree t = true →
      List.Pairwise (fun p q => pathLtB p q = true)
        ((walkEntries (sortTree t)).map Prod.fst) := by
  intro N
  induction N with
  | zero =>
    intro t ht
    exact absurd ht (by have := sizeOf_node_pos t; omega)
  | succ N ihN =>
    intro t ht hnd
    cases t with
    | file => simp [show sortTree .file = .file from rfl, walkEntries_file]
    | dir cs =>
      rw [nodupTree_dir] at hnd
      rw [sortTree, walkEntries_dir]
      apply walkChildren_pairwise
      · apply pairwise_ltEntry_of_le (sortEntries_sorted _)
        rw [← nodupKeys_iff]
        apply nodupKeys_sortEntries
        rw [nodupKeys_iff]
        rw [show entryKeys (sortChildren cs) = entryKeys cs from sortChildren_keys cs]
        exact (nodupKeys_iff cs).mp hnd.1
      · intro n c' hm
        obtain ⟨e, he, heq⟩ := mem_sortChildren.mp ((sortEntries_perm _).subset hm)
        rw [Prod.mk.injEq] at heq
        rw [heq.2]
        have hsz : sizeOf e.2 ≤ N := by
          have h1 := @sizeOf_child_lt cs e.1 e.2 (by simpa using he)
          have h2 : sizeOf (FsNode.dir cs) ≤ N + 1 := ht
          omega
        exact ihN e.2 hsz (nodupForest_of_mem (by simpa using he) hnd.2)

/-- The sorted depth-first walk emits paths in strictly increasing
depth-first lexicographic order. -/
theorem walk_sorted (t : FsNode) (hnd : nodupTree t = true) :
    List.Pairwise (fun p q => pathLtB p q = true)
      ((walkEntries (sortTree t)).map Prod.fst) :=
  walk_sorted_aux (sizeOf t) t le_rfl hnd

theorem relativeTo_append (base p : OsPath) : relativeTo base (base ++ p) = some p := by
  rw [relativeTo]
  rw [if_pos (List.isPrefixOf_iff_prefix.mpr (List.prefix_append base p))]
  rw [List.drop_left]

/-- The consumed candidate sequence is the unfolding of repeated
`CgroupsV2Iterator::next` pulls up to the first end-of-sequence
signal. -/
theorem v2_candidates_eq_next (globs : List GlobPattern) (regexes : List RegexPattern)
    (base : OsPath) (s : List (Except WalkError WalkEntryR)) :
    v2_candidates globs regexes base s =
      (match v2_next_aux globs regexes base s with
       | (some p, rest) => p :: v2_candidates globs regexes base rest
       | (none, _) => []) := by
  induction s with
  | nil => rfl
  | cons item rest ih =>
    cases item with
    | error e => rfl
    | ok entry =>
      by_cases h1 : entry.is_dir = true
      · cases hrel : relativeTo base entry.path with
        | none => simp only [v2_candidates, v2_next_aux, h1, hrel, Bool.not_true,
            Bool.false_eq_true, if_false, ih]
        | some rel =>
          by_cases h2 : rel.length = 0
          · simp only [v2_candidates, v2_next_aux, h1, hrel, h2, Bool.not_true,
              Bool.false_eq_true, if_false, if_true, ih]
          · by_cases h3 : path_matches_include globs rel = true
            · by_cases h4 : path_matches_include_regex regexes rel = true
              · simp only [v2_candidates, v2_next_aux, h1, hrel, h2, h3, h4, Bool.not_true,
                  Bool.false_eq_true, if_false]
              · simp only [v2_candidates, v2_next_aux, h1, hrel, h2, h3, h4, Bool.not_true,
                  Bool.false_eq_true, if_false, Bool.not_false, if_true, ih]
            · simp only [v2_candidates, v2_next_aux, h1, hrel, h2, h3, Bool.not_true,
                Bool.false_eq_true, if_false, Bool.not_false, if_true, ih]
      · rw [Bool.not_eq_true] at h1
        simp only [v2_candidates, v2_next_aux, h1, Bool.not_false, if_true, ih]

/-- On a stream of successful directory-walk items below `base`, the
consumed V2 sequence keeps exactly the directory entries accepted by
both filters, in stream order. -/
theorem v2_candidates_stream (globs : List GlobPattern) (regexes : List RegexPattern)
    (base : OsPath) (es : List (OsPath × Bool)) (hne : ∀ e ∈ es, e.1 ≠ []) :
    v2_candidates globs regexes base (es.map fun e => .ok ⟨base ++ e.1, e.2⟩) =
      (es.filter fun e => e.2 && v2_should_include globs regexes e.1).map Prod.fst := by
  induction es with
  | nil => rfl
  | cons e rest ih =>
    obtain ⟨p, d⟩ := e
    have hp : p ≠ [] := hne (p, d) (List.mem_cons_self _ _)
    have ihr := ih fun x hx => hne x (List.mem_cons_of_mem _ hx)
    have hlen : ¬ p.length = 0 := fun h => hp (List.length_eq_zero.mp h)
    cases d with
    | false =>
      simp only [List.map_cons, v2_candidates, Bool.not_false, if_true, List.filter_cons,
        Bool.false_and, ihr]
      simp
    | true =>
      simp only [List.map_cons, v2_candidates, Bool.not_true, Bool.false_eq_true, if_false,
        relativeTo_append, hlen, List.filter_cons, Bool.true_and]
      by_cases h3 : path_matches_include globs p = true
      · by_cases h4 : path_matches_include_regex regexes p = true
        · have hs : v2_should_include globs regexes p = true := by
            rw [v2_should_include, h3, h4]
            rfl
          simp only [h3, h4, Bool.not_true, Bool.false_eq_true, if_false, hs, if_true,
            List.map_cons, ihr]
        · rw [Bool.not_eq_true] at h4
          have hs : v2_should_include globs regexes p = false := by
            rw [v2_should_include, h4, Bool.and_false]
          simp only [h3, h4, Bool.not_true, Bool.false_eq_true, if_false, Bool.not_false,
            if_true, hs, ihr]
      · rw [Bool.not_eq_true] at h3
        have hs : v2_should_include globs regexes p = false := by
          rw [v2_should_include, h3, Bool.false_and]
        simp only [h3, Bool.not_false, if_true, hs, ihr]
        simp

/-- A full V2 enumeration over a tree keeps exactly the filter-accepted
directory entries of the sorted walk, in walk order. -/
theorem iter_cgroups_v2_tree_eq (globs : List GlobPattern) (regexes : List RegexPattern)
    (base : OsPath) (t : FsNode) :
    iter_cgroups_v2_tree globs regexes base t =
      ((walkEntries (sortTree t)).filter fun e =>
        e.2 && v2_should_include globs regexes e.1).map Prod.fst := by
  rw [iter_cgroups_v2_tree, treeStream]
  exact v2_candidates_stream globs regexes base _
    (fun e he => @walkEntries_ne_nil (sortTree t) e.1 e.2 (by simpa using he))

/-- The successful items of a walkdir stream. -/
def okItems (s : List (Except WalkError WalkEntryR)) : List WalkEntryR :=
  s.filterMap fun item =>
    match item with
    | .ok e => some e
    | .error _ => none

/-- One walk item makes the V1 loop accept relative path `p`: the item
succeeded with a directory strictly below the controller root whose
relative path is `p` and passes the filter. -/
def v1_entry_accepts (globs : List GlobPattern) (regexes : List RegexPattern)
    (base_controller_path : OsPath) (item : Except WalkError WalkEntryR)
    (p : OsPath) : Prop :=
  ∃ entry, item = .ok entry ∧ entry.is_dir = true ∧
    relativeTo base_controller_path entry.path = some p ∧ p ≠ [] ∧
    v1_should_include globs regexes p = true

/-- Relative path `p` is accepted by some walk item of some configured
subsystem: the discovery condition of V1 enumeration. -/
def acceptedV1 (globs : List GlobPattern) (regexes : List RegexPattern)
    (base : OsPath) (subsystems : List SubsystemWalk) (p : OsPath) : Prop :=
  ∃ sub ∈ subsystems, ∃ item ∈ sub.stream,
    v1_entry_accepts globs regexes (base ++ [sub.controller_name]) item p

theorem mem_insertAbsent {q p : OsPath} {acc : List OsPath} :
    q ∈ insertAbsent p acc ↔ q ∈ acc ∨ q = p := by
  by_cases h : p ∈ acc
  · rw [insertAbsent, if_pos h]
    constructor
    · exact Or.inl
    · rintro (hq | rfl) <;> assumption
  · rw [insertAbsent, if_neg h]
    simp

theorem nodup_insertAbsent {p : OsPath} {acc : List OsPath} (h : acc.Nodup) :
    (insertAbsent p acc).Nodup := by
  by_cases hm : p ∈ acc
  · rw [insertAbsent, if_pos hm]
    exact h
  · rw [insertAbsent, if_neg hm]
    rw [List.nodup_append]
    exact ⟨h, List.nodup_singleton p,
      fun a ha hap => hm ((List.mem_singleton.mp hap) ▸ ha)⟩

theorem mem_v1_process_entry {globs : List GlobPattern} {regexes : List RegexPattern}
    {b : OsPath} {acc : List OsPath} {item : Except WalkError WalkEntryR} {p : OsPath} :
    p ∈ v1_process_entry globs regexes b acc item ↔
      p ∈ acc ∨ v1_entry_accepts globs regexes b item p := by
  cases item with
  | error e =>
    rw [v1_process_entry]
    constructor
    · exact Or.inl
    · rintro (hp | ⟨entry, hcontra, _⟩)
      · exact hp
      · cases hcontra
  | ok entry =>
    rw [v1_process_entry]
    by_cases h1 : entry.is_dir = true
    · cases hrel : relativeTo b entry.path with
      | none =>
        simp only [h1, Bool.not_true, Bool.false_eq_true, if_false, hrel]
        constructor
        · exact Or.inl
        · rintro (hp | ⟨entry', heq, _, hrel', _⟩)
          · exact hp
          · cases heq
            rw [hrel] at hrel'
            cases hrel'
      | some rel =>
        by_cases h2 : rel.length = 0
        · simp only [h1, Bool.not_true, Bool.false_eq_true, if_false, hrel, h2, if_true]
          constructor
          · exact Or.inl
          · rintro (hp | ⟨entry', heq, _, hrel', hne, _⟩)
            · exact hp
            · cases heq
              rw [hrel] at hrel'
              cases hrel'
              exact absurd (List.length_eq_zero.mp h2) hne
        · by_cases h3 : v1_should_include globs regexes rel = true
          · simp only [h1, Bool.not_true, Bool.false_eq_true, if_false, hrel, h2, h3, if_true,
              mem_insertAbsent]
            constructor
            · rintro (hp | rfl)
              · exact Or.inl hp
              · exact Or.inr ⟨entry, rfl, h1, hrel,
                  fun hnil => h2 (by rw [hnil]; rfl), h3⟩
            · rintro (hp | ⟨entry', heq, _, hrel', _, _⟩)
              · exact Or.inl hp
              · cases heq
                rw [hrel] at hrel'
                cases hrel'
                exact Or.inr rfl
          · simp only [h1, Bool.not_true, Bool.false_eq_true, if_false, hrel, h2, h3, if_true]
            constructor
            · exact Or.inl
            · rintro (hp | ⟨entry', heq, _, hrel', _, hinc⟩)
              · exact hp
              · cases heq
                rw [hrel] at hrel'
                cases hrel'
                exact absurd hinc h3
    · rw [Bool.not_eq_true] at h1
      simp only [h1, Bool.not_false, if_true]
      constructor
      · exact Or.inl
      · rintro (hp | ⟨entry', heq, hdir, _⟩)
        · exact hp
        · cases heq
          rw [h1] at hdir
          cases hdir

theorem nodup_v1_process_entry {globs : List GlobPattern} {regexes : List RegexPattern}
    {b : OsPath} {acc : List OsPath} {item : Except WalkError WalkEntryR}
    (h : acc.Nodup) : (v1_process_entry globs regexes b acc item).Nodup := by
  cases item with
  | error e => exact h
  | ok entry =>
    rw [v1_process_entry]
    by_cases h1 : entry.is_dir = true
    · cases hrel : relativeTo b entry.path with
      | none => simp only [h1, Bool.not_true, Bool.false_eq_true, if_false, hrel]; exact h
      | some rel =>
        by_cases h2 : rel.length = 0
        · simp only [h1, Bool.not_true, Bool.false_eq_true, if_false, hrel, h2, if_true]
          exact h
        · by_cases h3 : v1_should_include globs regexes rel = true
          · simp only [h1, Bool.not_true, Bool.false_eq_true, if_false, hrel, h2, h3, if_true]
            exact nodup_insertAbsent h
          · simp only [h1, Bool.not_true, Bool.false_eq_true, if_false, hrel, h2, h3, if_true]
            exact h
    · rw [Bool.not_eq_true] at h1
      simp only [h1, Bool.not_false, if_true]
      exact h

theorem mem_foldl_process (globs : List GlobPattern) (regexes : List RegexPattern)
    (b : OsPath) (s : List (Except WalkError WalkEntryR)) (acc : List OsPath) (p : OsPath) :
    p ∈ s.foldl (v1_process_entry globs regexes b) acc ↔
      p ∈ acc ∨ ∃ item ∈ s, v1_entry_accepts globs regexes b item p := by
  induction s generalizing acc with
  | nil => simp
  | cons item rest ih =>
    rw [List.foldl_cons, ih, mem_v1_process_entry]
    constructor
    · rintro ((hp | ha) | ⟨it, hit, ha⟩)
      · exact Or.inl hp
      · exact Or.inr ⟨item, List.mem_cons_self _ _, ha⟩
      · exact Or.inr ⟨it, List.mem_cons_of_mem _ hit, ha⟩
    · rintro (hp | ⟨it, hit, ha⟩)
      · exact Or.inl (Or.inl hp)
      · rcases List.mem_cons.mp hit with rfl | hit'
        · exact Or.inl (Or.inr ha)
        · exact Or.inr ⟨it, hit', ha⟩

theorem nodup_foldl_process (globs : List GlobPattern) (regexes : List RegexPattern)
    (b : OsPath) (s : List (Except WalkError WalkEntryR)) (acc : List OsPath)
    (h : acc.Nodup) : (s.foldl (v1_process_entry globs regexes b) acc).Nodup := by
  induction s generalizing acc with
  | nil => exact h
  | cons item rest ih => exact ih _ (nodup_v1_process_entry h)

theorem mem_foldl_subsystems (globs : List GlobPattern) (regexes : List RegexPattern)
    (base : OsPath) (subsystems : List SubsystemWalk) (acc : List OsPath) (p : OsPath) :
    p ∈ subsystems.foldl
        (fun acc sub => sub.stream.foldl
          (v1_process_entry globs regexes (base ++ [sub.controller_name])) acc) acc ↔
      p ∈ acc ∨ ∃ sub ∈ subsystems, ∃ item ∈ sub.stream,
        v1_entry_accepts globs regexes (base ++ [sub.controller_name]) item p := by
  induction subsystems generalizing acc with
  | nil => simp
  | cons sub rest ih =>
    rw [List.foldl_cons, ih, mem_foldl_process]
    constructor
    · rintro ((hp | ⟨it, hit, ha⟩) | ⟨s', hs', it, hit, ha⟩)
      · exact Or.inl hp
      · exact Or.inr ⟨sub, List.mem_cons_self _ _, it, hit, ha⟩
      · exact Or.inr ⟨s', List.mem_cons_of_mem _ hs', it, hit, ha⟩
    · rintro (hp | ⟨s', hs', it, hit, ha⟩)
      · exact Or.inl (Or.inl hp)
      · rcases List.mem_cons.mp hs' with rfl | hs''
        · exact Or.inl (Or.inr ⟨it, hit, ha⟩)
        · exact Or.inr ⟨s', hs'', it, hit, ha⟩

/-- Membership in the V1 discovered set is exactly the discovery
condition: some subsystem's walk accepted the path. -/
theorem mem_iter_cgroups_v1 (globs : List GlobPattern) (regexes : List RegexPattern)
    (base : OsPath) (subsystems : List SubsystemWalk) (p : OsPath) :
    p ∈ iter_cgroups_v1 globs regexes base subsystems ↔
      acceptedV1 globs regexes base subsystems p := by
  rw [iter_cgroups_v1, mem_foldl_subsystems, acceptedV1]
  simp

/-- The V1 discovered set is duplicate-free. -/
theorem nodup_iter_cgroups_v1 (globs : List GlobPattern) (regexes : List RegexPattern)
    (base : OsPath) (subsystems : List SubsystemWalk) :
    (iter_cgroups_v1 globs regexes base subsystems).Nodup := by
  rw [iter_cgroups_v1]
  generalize h : ([] : List OsPath) = acc
  have hnd : acc.Nodup := h ▸ List.nodup_nil
  clear h
  induction subsystems generalizing acc with
  | nil => exact hnd
  | cons sub rest ih => exact ih _ (nodup_foldl_process _ _ _ _ _ hnd)

theorem foldl_process_okItems (globs : List GlobPattern) (regexes : List RegexPattern)
    (b : OsPath) (s : List (Except WalkError WalkEntryR)) (acc : List OsPath) :
    s.foldl (v1_process_entry globs regexes b) acc =
      (okItems s).foldl
        (fun acc entry => v1_process_entry globs regexes b acc (.ok entry)) acc := by
  induction s generalizing acc with
  | nil => rfl
  | cons item rest ih =>
    cases item with
    | error e => exact ih _
    | ok entry =>
      have hok : okItems (Except.ok entry :: rest) = entry :: okItems rest := by
        rw [okItems, okItems, List.filterMap_cons]
      rw [List.foldl_cons, ih, hok, List.foldl_cons]

theorem foldl_process_all_errors (globs : List GlobPattern) (regexes : List RegexPattern)
    (b : OsPath) (s : List (Except WalkError WalkEntryR)) (acc : List OsPath)
    (h : ∀ item ∈ s, ∃ e, item = .error e) :
    s.foldl (v1_process_entry globs regexes b) acc = acc := by
  induction s generalizing acc with
  | nil => rfl
  | cons item rest ih =>
    obtain ⟨e, rfl⟩ := h item (List.mem_cons_self _ _)
    rw [List.foldl_cons]
    exact ih _ fun it hit => h it (List.mem_cons_of_mem _ hit)

/-- A subsystem whose walk yields only errors contributes nothing and
the remaining subsystems are processed as if it were absent. -/
theorem iter_v1_drop_error_subsystem (globs : List GlobPattern) (regexes : List RegexPattern)
    (base : OsPath) (pre post : List SubsystemWalk) (sub : SubsystemWalk)
    (h : ∀ item ∈ sub.stream, ∃ e, item = .error e) :
    iter_cgroups_v1 globs regexes base (pre ++ sub :: post) =
      iter_cgroups_v1 globs regexes base (pre ++ post) := by
  rw [iter_cgroups_v1, iter_cgroups_v1, List.foldl_append, List.foldl_append,
    List.foldl_cons]
  rw [foldl_process_all_errors _ _ _ _ _ h]

theorem mapM_first_error {ε α β : Type} (f : α → Except ε β) :
    ∀ (l : List α) (j : Nat) (hj : j < l.length) (e : ε),
      f (l.get ⟨j, hj⟩) = .error e →
      (∀ i (hi : i < j), (f (l.get ⟨i, Nat.lt_trans hi hj⟩)).isOk = true) →
      l.mapM f = .error e := by
  intro l
  induction l with
  | nil =>
    intro j hj
    simp at hj
  | cons a rest ih =>
    intro j hj e hfail hok
    cases j with
    | zero =>
      rw [List.mapM_cons]
      have : f a = .error e := hfail
      rw [this]
      rfl
    | succ j' =>
      have h0 : (f a).isOk = true := hok 0 (Nat.succ_pos _)
      cases hfa : f a with
      | error e' =>
        rw [hfa] at h0
        simp [Except.isOk, Except.toBool] at h0
      | ok b =>
        have hj' : j' < rest.length := by
          simpa using hj
        have hrest : rest.mapM f = .error e :=
          ih j' hj' e hfail fun i hi => hok (i + 1) (by omega)
        rw [List.mapM_cons, hfa, hrest]
        rfl

theorem mapM_ok_get {ε α β : Type} (f : α → Except ε β) :
    ∀ (l : List α) (bs : List β), l.mapM f = .ok bs →
      l.length = bs.length ∧
        ∀ i (hi : i < l.length) (hbi : i < bs.length),
          f (l.get ⟨i, hi⟩) = .ok (bs.get ⟨i, hbi⟩) := by
  intro l
  induction l with
  | nil =>
    intro bs h
    rw [List.mapM_nil] at h
    cases h
    exact ⟨rfl, fun i hi => by simp at hi⟩
  | cons a rest ih =>
    intro bs h
    rw [List.mapM_cons] at h
    cases hfa : f a with
    | error e =>
      rw [hfa] at h
      cases h
    | ok b =>
      rw [hfa] at h
      cases hrest : rest.mapM f with
      | error e =>
        rw [hrest] at h
        cases h
      | ok brest =>
        rw [hrest] at h
        have hbs : bs = b :: brest := by
          have : (Except.ok (b :: brest) : Except ε (List β)) = .ok bs := h
          cases this
          rfl
        subst hbs
        obtain ⟨hlen, hget⟩ := ih brest hrest
        refine ⟨by simp [hlen], ?_⟩
        intro i hi hbi
        cases i with
        | zero => exact hfa
        | succ i' => exact hget i' (by simpa using hi) (by simpa using hbi)

/-- Modelled from the spec: the pooled-OR Pattern Filter of section 4.1,
"a path matches if it satisfies any glob OR any regex (logical OR across
all configured patterns, both kinds pooled)". -/
def pooled_or_matches (globs : List GlobPattern) (regexes : List RegexPattern)
    (p : OsPath) : Bool :=
  (globs.any fun g => g.matches_ (pathToLossy p))
    || (regexes.any fun r => r.is_match (pathToLossy p))

/-- Modelled from the spec: a relative path "discovered under any
controller" in a V1 enumeration — some subsystem's walk yielded a
successful directory item strictly below that controller's root with
this relative path. -/
def discovered_under_any_controller (base : OsPath) (subsystems : List SubsystemWalk)
    (p : OsPath) : Prop :=
  ∃ sub ∈ subsystems, ∃ entry : WalkEntryR, Except.ok entry ∈ sub.stream ∧
    entry.is_dir = true ∧
    relativeTo (base ++ [sub.controller_name]) entry.path = some p ∧ p ≠ []

/-- A glob matching exactly the string "a". -/
def globA : GlobPattern := ⟨fun s => s == "a"⟩

/-- A glob matching exactly the string "a/b". -/
def globAB : GlobPattern := ⟨fun s => s == "a/b"⟩

/-- A regex matching nothing. -/
def regexNone : RegexPattern := ⟨fun _ => false⟩

/-- The relative path "a" (byte 97). -/
def pathA : OsPath := [[97]]

/-- The relative path "b" (byte 98). -/
def pathB : OsPath := [[98]]

/-- C1 counterexample: with one glob and one regex configured, the V2
filter rejects the path "a" that the spec's pooled-OR filter accepts
(V2 is a conjunction of the two filter kinds); and with one glob and no
regexes, the V1 filter accepts the path "b" that pooled-OR rejects (an
empty regex list makes V1's disjunction vacuously true). -/
theorem c1_pattern_filter_or_counterexample :
    v2_should_include [globA] [regexNone] pathA
        ≠ pooled_or_matches [globA] [regexNone] pathA
      ∧ v1_should_include [globA] [] pathB ≠ pooled_or_matches [globA] [] pathB := by
  constructor <;> decide

/-- C1 (amended): for every configuration and path, the V1 strategy
accepts iff the glob set is empty or some glob matches, OR the regex set
is empty or some regex matches; the V2 strategy accepts iff (glob set
empty or some glob matches) AND (regex set empty or some regex matches).
Pooled-OR semantics holds only where these coincide. -/
theorem c1_pattern_filter_or_amended (globs : List GlobPattern)
    (regexes : List RegexPattern) (p : OsPath) :
    (v1_should_include globs regexes p
        = ((globs.isEmpty || globs.any fun g => g.matches_ (pathToLossy p))
            || (regexes.isEmpty || regexes.any fun r => r.is_match (pathToLossy p))))
      ∧ (v2_should_include globs regexes p
        = ((globs.isEmpty || globs.any fun g => g.matches_ (pathToLossy p))
            && (regexes.isEmpty || regexes.any fun r => r.is_match (pathToLossy p)))) := by
  have hg : path_matches_include globs p
      = (globs.isEmpty || globs.any fun g => g.matches_ (pathToLossy p)) := by
    rw [path_matches_include]
    cases h : globs.isEmpty
    · simp [h]
    · simp [h, List.isEmpty_iff.mp h]
  have hr : path_matches_include_regex regexes p
      = (regexes.isEmpty || regexes.any fun r => r.is_match (pathToLossy p)) := by
    rw [path_matches_include_regex]
    cases h : regexes.isEmpty
    · simp [h]
    · simp [h, List.isEmpty_iff.mp h]
  exact ⟨by rw [v1_should_include, hg, hr], by rw [v2_should_include, hg, hr]⟩

/-- C2 counterexample: a V1 subsystem whose walk yields an error item
followed by a successful matching directory still contributes that
candidate — the error does not make the subsystem contribute nothing. -/
theorem c2_error_subsystem_counterexample :
    iter_cgroups_v1 [] [] []
        [⟨[99], [.error ⟨"permission denied"⟩, .ok ⟨[[99], [97]], true⟩]⟩]
      = [[[97]]] := by
  rfl

/-- C2 (amended): an error item of a V1 subsystem walk contributes no
candidate itself; the walk of that subsystem continues over its
remaining successful items exactly as if the error items were absent;
and a subsystem whose walk yields only errors contributes nothing while
the other subsystems and the overall enumeration proceed unaffected. -/
theorem c2_error_subsystem_amended :
    (∀ (globs : List GlobPattern) (regexes : List RegexPattern) (b : OsPath)
        (acc : List OsPath) (e : WalkError),
      v1_process_entry globs regexes b acc (.error e) = acc)
      ∧ (∀ (globs : List GlobPattern) (regexes : List RegexPattern) (b : OsPath)
          (s : List (Except WalkError WalkEntryR)) (acc : List OsPath),
        s.foldl (v1_process_entry globs regexes b) acc
          = (okItems s).foldl
              (fun acc entry => v1_process_entry globs regexes b acc (.ok entry)) acc)
      ∧ (∀ (globs : List GlobPattern) (regexes : List RegexPattern) (base : OsPath)
          (pre post : List SubsystemWalk) (sub : SubsystemWalk),
        (∀ item ∈ sub.stream, ∃ e, item = .error e) →
        iter_cgroups_v1 globs regexes base (pre ++ sub :: post)
          = iter_cgroups_v1 globs regexes base (pre ++ post)) :=
  ⟨fun _ _ _ _ _ => rfl, foldl_process_okItems,
    fun globs regexes base pre post sub h =>
      iter_v1_drop_error_subsystem globs regexes base pre post sub h⟩

/-- Witness for C2 (amended): dropping a concrete all-error subsystem
leaves the enumeration of the remaining subsystems unchanged. -/
theorem c2_error_subsystem_amended_witness :
    iter_cgroups_v1 [] [] [] ([] ++ (⟨[99], [.error ⟨"boom"⟩]⟩ : SubsystemWalk) :: [])
      = iter_cgroups_v1 [] [] [] ([] ++ []) :=
  c2_error_subsystem_amended.2.2 [] [] [] [] [] ⟨[99], [.error ⟨"boom"⟩]⟩
    (fun item h => by
      rw [List.mem_singleton] at h
      exact ⟨⟨"boom"⟩, h⟩)

/-- Nothing past the first error item of the stream can influence the
consumed V2 sequence. -/
theorem v2_candidates_indep_after_error (globs : List GlobPattern)
    (regexes : List RegexPattern) (base : OsPath)
    (s₁ : List (Except WalkError WalkEntryR)) (e : WalkError)
    (s₂ s₂' : List (Except WalkError WalkEntryR)) :
    v2_candidates globs regexes base (s₁ ++ .error e :: s₂)
      = v2_candidates globs regexes base (s₁ ++ .error e :: s₂') := by
  induction s₁ with
  | nil => rfl
  | cons item rest ih =>
    cases item with
    | error e' => rfl
    | ok entry =>
      rw [List.cons_append, List.cons_append]
      by_cases h1 : entry.is_dir = true
      · cases hrel : relativeTo base entry.path with
        | none =>
          simp only [v2_candidates, h1, hrel, Bool.not_true, Bool.false_eq_true, if_false]
          exact ih
        | some rel =>
          by_cases h2 : rel.length = 0
          · simp only [v2_candidates, h1, hrel, h2, Bool.not_true, Bool.false_eq_true,
              if_false, if_true]
            exact ih
          · by_cases h3 : path_matches_include globs rel = true
            · by_cases h4 : path_matches_include_regex regexes rel = true
              · simp only [v2_candidates, h1, hrel, h2, h3, h4, Bool.not_true,
                  Bool.false_eq_true, if_false]
                rw [ih]
              · simp only [v2_candidates, h1, hrel, h2, h3, h4, Bool.not_true,
                  Bool.false_eq_true, if_false, Bool.not_false, if_true]
                exact ih
            · simp only [v2_candidates, h1, hrel, h2, h3, Bool.not_true,
                Bool.false_eq_true, if_false, Bool.not_false, if_true]
              exact ih
      · rw [Bool.not_eq_true] at h1
        simp only [v2_candidates, h1, Bool.not_false, if_true]
        exact ih

/-- C4 counterexample: after the pull that hits the walk error returns
the end-of-sequence signal, one more pull resumes the walk and produces
a candidate — the iterator is not fused, so "every later pull produces
no candidate" fails. -/
theorem c4_error_stops_counterexample :
    (v2_next_aux [] [] [] [.error ⟨"boom"⟩, .ok ⟨[[97]], true⟩]).1 = none
      ∧ (v2_next_aux [] [] []
          (v2_next_aux [] [] [] [.error ⟨"boom"⟩, .ok ⟨[[97]], true⟩]).2).1
        = some [[97]] := by
  constructor <;> rfl

/-- C4 (amended): the pull that encounters a walk error immediately
returns no candidate and signals end of sequence, without skipping past
the error inside that pull; the sequence a conforming consumer reads
ends at the error, and nothing past the first error can change it.  The
iterator is however not fused: an extra pull after the end signal
resumes the walk. -/
theorem c4_error_stops_amended :
    (∀ (globs : List GlobPattern) (regexes : List RegexPattern) (base : OsPath)
        (e : WalkError) (rest : List (Except WalkError WalkEntryR)),
      v2_next_aux globs regexes base (.error e :: rest) = (none, rest))
      ∧ (∀ (globs : List GlobPattern) (regexes : List RegexPattern) (base : OsPath)
          (e : WalkError) (rest : List (Except WalkError WalkEntryR)),
        v2_candidates globs regexes base (.error e :: rest) = [])
      ∧ (∀ (globs : List GlobPattern) (regexes : List RegexPattern) (base : OsPath)
          (s₁ : List (Except WalkError WalkEntryR)) (e : WalkError)
          (s₂ s₂' : List (Except WalkError WalkEntryR)),
        v2_candidates globs regexes base (s₁ ++ .error e :: s₂)
          = v2_candidates globs regexes base (s₁ ++ .error e :: s₂')) :=
  ⟨fun _ _ _ _ _ => rfl, fun _ _ _ _ _ => rfl, v2_candidates_indep_after_error⟩

/-- C3: build-time validation.  If the `j`-th pattern string is the
first whose compilation fails, `parse_include` fails with a validation
error carrying that pattern's own syntax error; dually, a successful
`parse_include` returns exactly the compiled forms of all the strings
(so a built Explorer holds only compiled patterns and traversal can
never encounter a compilation error); and the same holds for
`parse_include_regex`. -/
theorem c3_build_validation :
    (∀ (compile : String → Except GlobError GlobPattern) (strs : List String)
        (j : Nat) (hj : j < strs.length) (e : GlobError),
      compile (strs.get ⟨j, hj⟩) = .error e →
      (∀ i (hi : i < j), (compile (strs.get ⟨i, Nat.lt_trans hi hj⟩)).isOk = true) →
      parse_include compile strs = .error (.ValidationError e.msg))
      ∧ (∀ (compile : String → Except GlobError GlobPattern) (strs : List String)
          (ps : List GlobPattern),
        parse_include compile strs = .ok ps →
        strs.length = ps.length ∧
          ∀ i (hi : i < strs.length) (hpi : i < ps.length),
            compile (strs.get ⟨i, hi⟩) = .ok (ps.get ⟨i, hpi⟩))
      ∧ (∀ (compile : String → Except RegexError RegexPattern) (strs : List String)
          (j : Nat) (hj : j < strs.length) (e : RegexError),
        compile (strs.get ⟨j, hj⟩) = .error e →
        (∀ i (hi : i < j), (compile (strs.get ⟨i, Nat.lt_trans hi hj⟩)).isOk = true) →
        parse_include_regex compile strs = .error (.ValidationError e.msg))
      ∧ (∀ (compile : String → Except RegexError RegexPattern) (strs : List String)
          (ps : List RegexPattern),
        parse_include_regex compile strs = .ok ps →
        strs.length = ps.length ∧
          ∀ i (hi : i < strs.length) (hpi : i < ps.length),
            compile (strs.get ⟨i, hi⟩) = .ok (ps.get ⟨i, hpi⟩)) := by
  refine ⟨?_, ?_, ?_, ?_⟩
  · intro compile strs j hj e hfail hok
    have hne : strs ≠ [] := by
      intro h
      subst h
      simp at hj
    rw [parse_include, if_neg (by simpa [List.isEmpty_iff] using hne)]
    apply mapM_first_error _ strs j hj _ (by rw [hfail])
    intro i hi
    cases h : compile (strs.get ⟨i, Nat.lt_trans hi hj⟩) with
    | ok p => rfl
    | error e' =>
      have := hok i hi
      rw [h] at this
      simp [Except.isOk, Except.toBool] at this
  · intro compile strs ps h
    rw [parse_include] at h
    by_cases hemp : strs.isEmpty = true
    · rw [if_pos hemp] at h
      have hstrs : strs = [] := List.isEmpty_iff.mp hemp
      subst hstrs
      cases h
      exact ⟨rfl, fun i hi => by simp at hi⟩
    · rw [if_neg hemp] at h
      obtain ⟨hlen, hget⟩ := mapM_ok_get _ strs ps h
      refine ⟨hlen, ?_⟩
      intro i hi hpi
      have := hget i hi hpi
      cases hc : compile (strs.get ⟨i, hi⟩) with
      | ok p =>
        rw [hc] at this
        cases this
        rfl
      | error e =>
        rw [hc] at this
        cases this
  · intro compile strs j hj e hfail hok
    have hne : strs ≠ [] := by
      intro h
      subst h
      simp at hj
    rw [parse_include_regex, if_neg (by simpa [List.isEmpty_iff] using hne)]
    apply mapM_first_error _ strs j hj _ (by rw [hfail])
    intro i hi
    cases h : compile (strs.get ⟨i, Nat.lt_trans hi hj⟩) with
    | ok p => rfl
    | error e' =>
      have := hok i hi
      rw [h] at this
      simp [Except.isOk, Except.toBool] at this
  · intro compile strs ps h
    rw [parse_include_regex] at h
    by_cases hemp : strs.isEmpty = true
    · rw [if_pos hemp] at h
      have hstrs : strs = [] := List.isEmpty_iff.mp hemp
      subst hstrs
      cases h
      exact ⟨rfl, fun i hi => by simp at hi⟩
    · rw [if_neg hemp] at h
      obtain ⟨hlen, hget⟩ := mapM_ok_get _ strs ps h
      refine ⟨hlen, ?_⟩
      intro i hi hpi
      have := hget i hi hpi
      cases hc : compile (strs.get ⟨i, hi⟩) with
      | ok p =>
        rw [hc] at this
        cases this
        rfl
      | error e =>
        rw [hc] at this
        cases this

/-- A concrete glob compiler failing exactly on the string "[". -/
def globCompilerTest : String → Except GlobError GlobPattern := fun s =>
  if s = "[" then .error ⟨"unclosed character class"⟩
  else .ok ⟨fun x => x == s⟩

/-- Witness for C3: on the list whose second string is the first
malformed pattern, build fails with that pattern's validation error. -/
theorem c3_build_validation_witness :
    parse_include globCompilerTest ["ok", "[", "later"]
      = .error (.ValidationError "unclosed character class") :=
  c3_build_validation.1 globCompilerTest ["ok", "[", "later"] 1 (by decide)
    ⟨"unclosed character class"⟩ rfl
    (fun i hi => by
      have h0 : i = 0 := by omega
      subst h0
      rfl)

/-- C5: V1 deduplication.  The discovered set of a V1 enumeration is
duplicate-free, and a relative path belongs to it exactly when some
configured subsystem's walk accepted it — so each accepted distinct
relative path is yielded exactly once however many subsystems observed
it. -/
theorem c5_v1_dedup (globs : List GlobPattern) (regexes : List RegexPattern)
    (base : OsPath) (subsystems : List SubsystemWalk) :
    (iter_cgroups_v1 globs regexes base subsystems).Nodup
      ∧ ∀ p, (p ∈ iter_cgroups_v1 globs regexes base subsystems ↔
          acceptedV1 globs regexes base subsystems p) :=
  ⟨nodup_iter_cgroups_v1 globs regexes base subsystems,
    fun p => mem_iter_cgroups_v1 globs regexes base subsystems p⟩

theorem v1_should_include_empty (p : OsPath) : v1_should_include [] [] p = true := rfl

theorem v2_should_include_empty (p : OsPath) : v2_should_include [] [] p = true := rfl

/-- C6: empty filters accept everything.  A V2 enumeration with no
patterns yields exactly the strict-descendant directories of the root,
and a V1 enumeration with no patterns yields exactly the distinct
relative paths discovered under any controller. -/
theorem c6_empty_filter_match_all :
    (∀ (base : OsPath) (t : FsNode) (p : OsPath),
      p ∈ iter_cgroups_v2_tree [] [] base t ↔ DescDir t p)
      ∧ (∀ (base : OsPath) (subsystems : List SubsystemWalk) (p : OsPath),
        p ∈ iter_cgroups_v1 [] [] base subsystems ↔
          discovered_under_any_controller base subsystems p) := by
  constructor
  · intro base t p
    rw [iter_cgroups_v2_tree_eq]
    constructor
    · intro h
      obtain ⟨⟨p', d⟩, hf, rfl⟩ := List.mem_map.mp h
      obtain ⟨hw, hcond⟩ := List.mem_filter.mp hf
      have hd : d = true := by
        cases d
        · simp at hcond
        · rfl
      subst hd
      exact (descEntry_sortTree t p' true).mp ((mem_walkEntries _ p' true).mp hw)
    · intro h
      apply List.mem_map.mpr
      refine ⟨(p, true), List.mem_filter.mpr ⟨?_, ?_⟩, rfl⟩
      · exact (mem_walkEntries _ p true).mpr ((descEntry_sortTree t p true).mpr h)
      · rw [v2_should_include_empty]
        rfl
  · intro base subsystems p
    rw [mem_iter_cgroups_v1, acceptedV1, discovered_under_any_controller]
    constructor
    · rintro ⟨sub, hsub, item, hitem, entry, rfl, hdir, hrel, hne, _⟩
      exact ⟨sub, hsub, entry, hitem, hdir, hrel, hne⟩
    · rintro ⟨sub, hsub, entry, hitem, hdir, hrel, hne⟩
      exact ⟨sub, hsub, .ok entry, hitem,
        entry, rfl, hdir, hrel, hne, v1_should_include_empty p⟩

/-- C7: V2 ordering determinism.  Two enumerations of the same unchanged
tree — presented in any two readdir orders — yield the same candidates
in the same order, and that order is the strict depth-first lexicographic
order on relative paths (entries sorted by name at each level). -/
theorem c7_v2_order_determinism (globs : List GlobPattern) (regexes : List RegexPattern)
    (base : OsPath) (t₁ t₂ : FsNode) (hnd : nodupTree t₁ = true) (heq : TEq t₁ t₂) :
    iter_cgroups_v2_tree globs regexes base t₁
        = iter_cgroups_v2_tree globs regexes base t₂
      ∧ List.Pairwise (fun p q => pathLtB p q = true)
          (iter_cgroups_v2_tree globs regexes base t₁) := by
  constructor
  · rw [iter_cgroups_v2_tree, iter_cgroups_v2_tree, treeStream, treeStream,
      heq.sortTree_eq hnd]
  · rw [iter_cgroups_v2_tree_eq]
    have hw := walk_sorted t₁ hnd
    have hpw : List.Pairwise (fun a b : OsPath × Bool => pathLtB a.1 b.1 = true)
        (walkEntries (sortTree t₁)) := List.pairwise_map.mp hw
    exact List.pairwise_map.mpr (List.Pairwise.sublist (List.filter_sublist _) hpw)

/-- A tree whose readdir order lists "b" before "a". -/
def treeWitness1 : FsNode := .dir [([98], .dir [([97], .file)]), ([97], .dir [])]

/-- The same tree with the two top entries listed the other way. -/
def treeWitness2 : FsNode := .dir [([97], .dir []), ([98], .dir [([97], .file)])]

/-- Witness for C7 on a concrete pair of readdir presentations. -/
theorem c7_v2_order_determinism_witness :
    iter_cgroups_v2_tree [] [] [] treeWitness1
        = iter_cgroups_v2_tree [] [] [] treeWitness2
      ∧ List.Pairwise (fun p q => pathLtB p q = true)
          (iter_cgroups_v2_tree [] [] [] treeWitness1) :=
  c7_v2_order_determinism [] [] [] treeWitness1 treeWitness2
    (by simp [treeWitness1, nodupTree, nodupKeys, nodupForest])
    (by rw [treeWitness1, treeWitness2]; exact TEq.dirSwap)

/-- C8: filtering is per-node, not a subtree prune.  Any
strict-descendant directory whose relative path passes the filter is
yielded by the V2 enumeration, even when some strict ancestor of it is
rejected by the filter. -/
theorem c8_no_subtree_prune (globs : List GlobPattern) (regexes : List RegexPattern)
    (base : OsPath) (t : FsNode) (p q : OsPath)
    (hdesc : DescDir t p) (hacc : v2_should_include globs regexes p = true)
    (hanc : q <+: p) (hne : q ≠ p)
    (hrej : v2_should_include globs regexes q = false) :
    p ∈ iter_cgroups_v2_tree globs regexes base t := by
  rw [iter_cgroups_v2_tree_eq]
  have hmem : (p, true) ∈ walkEntries (sortTree t) :=
    (mem_walkEntries _ p true).mpr ((descEntry_sortTree t p true).mpr hdesc)
  apply List.mem_map.mpr
  refine ⟨(p, true), List.mem_filter.mpr ⟨hmem, ?_⟩, rfl⟩
  rw [hacc]
  rfl

/-- A tree with one directory "a" containing one directory "b". -/
def treeWitness3 : FsNode := .dir [([97], .dir [([98], .dir [])])]

/-- Witness for C8: with the single glob for "a/b", the directory
"a/b" is yielded although its ancestor "a" is rejected. -/
theorem c8_no_subtree_prune_witness :
    [[97], [98]] ∈ iter_cgroups_v2_tree [globAB] [] [] treeWitness3 :=
  c8_no_subtree_prune [globAB] [] [] treeWitness3 [[97], [98]] [[97]]
    (DescEntry.there (List.mem_cons_self _ _) (DescEntry.here (List.mem_cons_self _ _)))
    (by decide) ⟨[[98]], rfl⟩ (by decide) (by decide)

/-- C9: the hierarchy root is never yielded.  A V2 pull that produces a
candidate produces a non-empty relative path, and every member of the V1
discovered set is a non-empty relative path — only strict descendants of
the walked roots are candidates. -/
theorem c9_root_excluded :
    (∀ (globs : List GlobPattern) (regexes : List RegexPattern) (base : OsPath)
        (s s' : List (Except WalkError WalkEntryR)) (p : OsPath),
      v2_next_aux globs regexes base s = (some p, s') → p ≠ [])
      ∧ (∀ (globs : List GlobPattern) (regexes : List RegexPattern) (base : OsPath)
          (subsystems : List SubsystemWalk) (p : OsPath),
        p ∈ iter_cgroups_v1 globs regexes base subsystems → p ≠ []) := by
  constructor
  · intro globs regexes base s
    induction s with
    | nil =>
      intro s' p h
      simp [v2_next_aux] at h
    | cons item rest ih =>
      intro s' p h
      cases item with
      | error e => simp [v2_next_aux] at h
      | ok entry =>
        by_cases h1 : entry.is_dir = true
        · cases hrel : relativeTo base entry.path with
          | none =>
            simp only [v2_next_aux, h1, hrel, Bool.not_true, Bool.false_eq_true,
              if_false] at h
            exact ih _ _ h
          | some rel =>
            by_cases h2 : rel.length = 0
            · simp only [v2_next_aux, h1, hrel, h2, Bool.not_true, Bool.false_eq_true,
                if_false, if_true] at h
              exact ih _ _ h
            · by_cases h3 : path_matches_include globs rel = true
              · by_cases h4 : path_matches_include_regex regexes rel = true
                · simp only [v2_next_aux, h1, hrel, h2, h3, h4, Bool.not_true,
                    Bool.false_eq_true, if_false] at h
                  rw [Prod.mk.injEq] at h
                  have hp : rel = p := Option.some.inj h.1
                  subst hp
                  intro hnil
                  subst hnil
                  exact h2 rfl
                · simp only [v2_next_aux, h1, hrel, h2, h3, h4, Bool.not_true,
                    Bool.false_eq_true, if_false, Bool.not_false, if_true] at h
                  exact ih _ _ h
              · simp only [v2_next_aux, h1, hrel, h2, h3, Bool.not_true,
                  Bool.false_eq_true, if_false, Bool.not_false, if_true] at h
                exact ih _ _ h
        · rw [Bool.not_eq_true] at h1
          simp only [v2_next_aux, h1, Bool.not_false, if_true] at h
          exact ih _ _ h
  · intro globs regexes base subsystems p hmem
    obtain ⟨sub, hsub, item, hitem, entry, heq, hdir, hrel, hne, hinc⟩ :=
      (mem_iter_cgroups_v1 globs regexes base subsystems p).mp hmem
    exact hne

/-- Witness for C9: a concrete pull yielding the path "a" yields a
non-empty relative path. -/
theorem c9_root_excluded_witness : ([[97]] : OsPath) ≠ [] :=
  c9_root_excluded.1 [] [] [] [.ok ⟨[[97]], true⟩] [] [[97]] rfl

/-- C10: the filter decision factors through the lossy UTF-8 string of
the relative path: two paths with equal lossy conversions receive the
same decision from the glob filter, the regex filter and both
strategies' combined filters, under every configuration. -/
theorem c10_lossy_conversion_determines_filter (globs : List GlobPattern)
    (regexes : List RegexPattern) (p₁ p₂ : OsPath)
    (h : pathToLossy p₁ = pathToLossy p₂) :
    path_matches_include globs p₁ = path_matches_include globs p₂
      ∧ path_matches_include_regex regexes p₁ = path_matches_include_regex regexes p₂
      ∧ v1_should_include globs regexes p₁ = v1_should_include globs regexes p₂
      ∧ v2_should_include globs regexes p₁ = v2_should_include globs regexes p₂ := by
  have hg : path_matches_include globs p₁ = path_matches_include globs p₂ := by
    rw [path_matches_include, path_matches_include, h]
  have hr : path_matches_include_regex regexes p₁
      = path_matches_include_regex regexes p₂ := by
    rw [path_matches_include_regex, path_matches_include_regex, h]
  exact ⟨hg, hr, by rw [v1_should_include, v1_should_include, hg, hr],
    by rw [v2_should_include, v2_should_include, hg, hr]⟩

/-- The one-component path whose byte is the invalid UTF-8 byte 0xFF. -/
def pathInvalidByte : OsPath := [[255]]

/-- The one-component path whose bytes encode U+FFFD. -/
def pathReplacement : OsPath := [[239, 191, 189]]

/-- Witness for C10 on two distinct byte paths with the same lossy
string (both convert to the replacement character). -/
theorem c10_lossy_conversion_witness :
    path_matches_include [globA] pathInvalidByte
        = path_matches_include [globA] pathReplacement
      ∧ path_matches_include_regex [regexNone] pathInvalidByte
        = path_matches_include_regex [regexNone] pathReplacement
      ∧ v1_should_include [globA] [regexNone] pathInvalidByte
        = v1_should_include [globA] [regexNone] pathReplacement
      ∧ v2_should_include [globA] [regexNone] pathInvalidByte
        = v2_should_include [globA] [regexNone] pathReplacement :=
  c10_lossy_conversion_determines_filter [globA] [regexNone]
    pathInvalidByte pathReplacement (by decide)
